import Mathlib

/- Verification development for rltorch/agents/core.py (class ACAgent).

   Conventions of the shallow embedding:
   - Python floats are modelled by ℚ (the claims under scrutiny speak about
     values "up to floating-point summation order", i.e. about the exact
     field computation).
   - All torch tensor operations appearing in aggregate_experiences
     (addition, multiplication, detach, the adv accumulation) act
     elementwise over the worker axis, so the advantage pipeline is
     embedded per worker coordinate: each list below is indexed by
     timestep and holds that worker's scalar for the timestep.
   - The Experience Store (class ACMemory, imported from ..memories and
     not part of the sources under verification) is modelled from the
     spec's interface description where needed; this is noted on each
     such definition.
   - Fallible Python code (attribute errors, exceptions raised by the
     telemetry writer) is embedded with Except/Option. -/

namespace Rltorch

/-- Terminal mask, source line 205: masks = 1. - np.array(terminal, dtype=float). -/
def maskOf (b : Bool) : ℚ := 1 - (if b then 1 else 0)

/-- TD residuals, source lines 220-234: for t in range(T-1) the loop computes
    target = rewards[t] + values[t+1] * masks[t] (detach is the numeric
    identity) and delta = target - values[t]; then the bootstrap residual
    new_delta = rewards[-1] + vT * masks[-1] - values[-1] is appended, where
    vT stands for new_value = ac_model(new_state)[1].sum(-1).
    The source assumes a full horizon (T = len(rewards) ≥ 1, all lists of
    equal length); the theorems below carry these as hypotheses. -/
def computeDeltas (rewards values masks : List ℚ) (vT : ℚ) : List ℚ :=
  ((List.range (rewards.length - 1)).map (fun t =>
      rewards.getD t 0 + values.getD (t + 1) 0 * masks.getD t 0 - values.getD t 0))
    ++ [rewards.getD (rewards.length - 1) 0
          + vT * masks.getD (rewards.length - 1) 0
          - values.getD (rewards.length - 1) 0]

/-- Inner accumulation loop, source lines 240-244:
    adv = 0.; power = 0.; for t in range(t_st, T): adv += deltas[t] *
    (decay_rate ** power); power += 1.  Python's power counter is a float
    taking the values 0.0, 1.0, 2.0, ...; it is embedded as a ℕ exponent
    (identical semantics on these values, including 0.0 ** 0.0 = 1). -/
def advLoop (decay : ℚ) : List ℚ → ℚ → ℕ → ℚ
  | [], adv, _ => adv
  | d :: rest, adv, power => advLoop decay rest (adv + d * decay ^ power) (power + 1)

/-- Outer loop, source lines 238-245: for t_st in range(T) append the inner
    accumulation over deltas[t_st:]. -/
def computeAdvs (decay : ℚ) (deltas : List ℚ) : List ℚ :=
  (List.range deltas.length).map (fun t_st => advLoop decay (deltas.drop t_st) 0 0)

/-- Modelled from the spec: the Experience Store (class ACMemory, imported
    from ..memories, not among the sources under verification) as read by
    aggregate_experiences.  sample() hands back the stored full-horizon
    sequences; the numeric entries are one worker's scalars per timestep
    and `values` holds the already summed value head output
    (torch.sum(values, -1), source line 211). -/
structure ACMemory where
  rewards : List ℚ
  terminals : List Bool
  values : List ℚ
  log_probs : List ℚ
  entropies : List ℚ
deriving DecidableEq

/-- Modelled from the spec: "The Experience Store is then reset to an empty
    state" (memory.reset(), source line 247). -/
def ACMemory.reset (_m : ACMemory) : ACMemory := ⟨[], [], [], [], []⟩

/-- The fields of ACAgent that aggregate_experiences (source lines 200-248)
    reads: the GAE hyperparameters, the value head of the model
    (model_value s embeds ac_model(s)[1].sum(-1)), the windowed-state
    reconstruction of the store (recent_state, modelled from the spec:
    memory.get_recent_state), the pending newest observation set by
    set_new_obs, and the store contents. -/
structure ACAgent (σ τ : Type) where
  discount : ℚ
  gae_lambda : ℚ
  model_value : τ → ℚ
  recent_state : List σ → τ
  new_obs : List σ
  memory : ACMemory

variable {σ τ : Type}

/-- Source lines 197-198: get_newest_state returns
    memory.get_recent_state(self.new_obs). -/
def ACAgent.get_newest_state (a : ACAgent σ τ) : τ := a.recent_state a.new_obs

/-- The delta sequence exactly as aggregate_experiences builds it
    (source lines 220-234), with the bootstrap value freshly computed by
    running the model on the newest state. -/
def ACAgent.aggDeltas (a : ACAgent σ τ) : List ℚ :=
  computeDeltas a.memory.rewards a.memory.values (a.memory.terminals.map maskOf)
    (a.model_value a.get_newest_state)

/-- Source lines 200-248: aggregate_experiences computes deltas, then the
    nested-sum advantages with decay_rate = discount * gae_lambda, resets
    the store, and returns (advs, log_probs, entropies) (the latter two are
    the cached sequences from the store, unchanged). -/
def ACAgent.aggregate_experiences (a : ACAgent σ τ) :
    (List ℚ × List ℚ × List ℚ) × ACAgent σ τ :=
  ((computeAdvs (a.discount * a.gae_lambda) a.aggDeltas,
      a.memory.log_probs, a.memory.entropies),
    { a with memory := a.memory.reset })

/-- Spec-side definition, following the words of claim C3: the backward
    recurrence adv[t] = delta[t] + decay * mask[t] * adv[t+1] with
    adv[T] = 0 and mask[t] = 1 - terminal[t], on the zipped list of
    (delta, terminal) pairs. -/
def specAdvRec (decay : ℚ) : List (ℚ × Bool) → List ℚ
  | [] => []
  | p :: rest =>
    let tl := specAdvRec decay rest
    (p.1 + decay * maskOf p.2 * tl.headD 0) :: tl

/-- The unmasked backward recurrence adv[t] = delta[t] + decay * adv[t+1],
    adv[T] = 0; the amended form of claim C3's recurrence. -/
def advRecPlain (decay : ℚ) : List ℚ → List ℚ
  | [] => []
  | d :: rest =>
    let tl := advRecPlain decay rest
    (d + decay * tl.headD 0) :: tl

theorem getD_drop {α : Type} (l : List α) (m k : ℕ) (d : α) :
    (l.drop m).getD k d = l.getD (m + k) d := by
  induction l generalizing m with
  | nil => simp
  | cons x xs ih =>
    cases m with
    | zero => simp
    | succ m =>
      rw [List.drop_succ_cons, ih, Nat.succ_add, List.getD_cons_succ]

theorem advLoop_eq_sum (decay : ℚ) (l : List ℚ) (a : ℚ) (p : ℕ) :
    advLoop decay l a p
      = a + ∑ k in Finset.range l.length, l.getD k 0 * decay ^ (p + k) := by
  induction l generalizing a p with
  | nil => simp [advLoop]
  | cons d rest ih =>
    rw [advLoop, ih, List.length_cons, Finset.sum_range_succ']
    simp only [List.getD_cons_succ, List.getD_cons_zero, Nat.add_zero]
    have hs : ∀ k, rest.getD k 0 * decay ^ (p + 1 + k)
        = rest.getD k 0 * decay ^ (p + (k + 1)) := by
      intro k
      have : p + 1 + k = p + (k + 1) := by omega
      rw [this]
    rw [Finset.sum_congr rfl (fun k _ => hs k)]
    ring

theorem advLoop_cons (decay d : ℚ) (l : List ℚ) :
    advLoop decay (d :: l) 0 0 = d + decay * advLoop decay l 0 0 := by
  rw [advLoop_eq_sum, advLoop_eq_sum, List.length_cons, Finset.sum_range_succ']
  simp only [List.getD_cons_succ, List.getD_cons_zero, Nat.zero_add, zero_add,
    pow_zero, mul_one, Finset.mul_sum]
  rw [add_comm]
  congr 1
  refine Finset.sum_congr rfl (fun k _ => ?_)
  rw [pow_succ]
  ring

theorem advRecPlain_headD (decay : ℚ) (l : List ℚ) :
    (advRecPlain decay l).headD 0 = advLoop decay l 0 0 := by
  induction l with
  | nil => simp [advRecPlain, advLoop]
  | cons d rest ih =>
    show (d + decay * (advRecPlain decay rest).headD 0) = _
    rw [ih, advLoop_cons]

theorem computeAdvs_eq_advRecPlain (decay : ℚ) (ds : List ℚ) :
    computeAdvs decay ds = advRecPlain decay ds := by
  induction ds with
  | nil => rfl
  | cons d rest ih =>
    have htail : List.map
        ((fun t_st => advLoop decay ((d :: rest).drop t_st) 0 0) ∘ Nat.succ)
        (List.range rest.length) = advRecPlain decay rest := by
      rw [← ih]
      rfl
    show (List.range (rest.length + 1)).map
        (fun t_st => advLoop decay ((d :: rest).drop t_st) 0 0)
      = (d + decay * (advRecPlain decay rest).headD 0) :: advRecPlain decay rest
    rw [List.range_succ_eq_map, List.map_cons, List.map_map, htail,
      advRecPlain_headD]
    exact congrArg (fun x => x :: advRecPlain decay rest) (advLoop_cons decay d rest)

theorem advRecPlain_zero (l : List ℚ) : advRecPlain 0 l = l := by
  induction l with
  | nil => rfl
  | cons d rest ih =>
    show (d + 0 * (advRecPlain 0 rest).headD 0) :: advRecPlain 0 rest = d :: rest
    rw [ih]
    norm_num

theorem computeAdvs_getD (decay : ℚ) (ds : List ℚ) (t_st : ℕ)
    (h : t_st < ds.length) :
    (computeAdvs decay ds).getD t_st 0
      = ∑ t in Finset.Ico t_st ds.length, ds.getD t 0 * decay ^ (t - t_st) := by
  rw [computeAdvs, List.getD_eq_getElem _ _ (by simpa using h),
    List.getElem_map, List.getElem_range, advLoop_eq_sum,
    Finset.sum_Ico_eq_sum_range]
  rw [List.length_drop]
  refine (zero_add _).trans (Finset.sum_congr rfl (fun k hk => ?_))
  rw [getD_drop]
  congr 2
  omega

theorem computeDeltas_length (rewards values masks : List ℚ) (vT : ℚ) :
    (computeDeltas rewards values masks vT).length = rewards.length - 1 + 1 := by
  simp [computeDeltas]

theorem computeDeltas_getD_lt (rewards values masks : List ℚ) (vT : ℚ) (t : ℕ)
    (h : t + 1 < rewards.length) :
    (computeDeltas rewards values masks vT).getD t 0
      = rewards.getD t 0 + values.getD (t + 1) 0 * masks.getD t 0
        - values.getD t 0 := by
  rw [computeDeltas,
    List.getD_append _ _ _ _ (by simpa using (by omega : t < rewards.length - 1)),
    List.getD_eq_getElem _ _ (by simpa using (by omega : t < rewards.length - 1)),
    List.getElem_map, List.getElem_range]

theorem computeDeltas_getD_last (rewards values masks : List ℚ) (vT : ℚ) :
    (computeDeltas rewards values masks vT).getD (rewards.length - 1) 0
      = rewards.getD (rewards.length - 1) 0
        + vT * masks.getD (rewards.length - 1) 0
        - values.getD (rewards.length - 1) 0 := by
  rw [computeDeltas, List.getD_append_right _ _ _ _ (by simp)]
  simp

theorem getD_map_maskOf (terminals : List Bool) (t : ℕ) (h : t < terminals.length) :
    (terminals.map maskOf).getD t 0 = maskOf (terminals.getD t false) := by
  rw [List.getD_eq_getElem _ _ (by simpa using h), List.getElem_map,
    List.getD_eq_getElem _ _ h]

/-- Claim C1: for a completed rollout of T timesteps, the advantage returned
    by aggregate_experiences at each start index t_st is the literal nested
    sum over t from t_st to T-1 of delta[t] * (discount * gae_lambda)^(t -
    t_st); no terminal masking occurs inside the summation (terminals enter
    only through the delta values themselves). -/
theorem claim1_advantage_literal_nested_sum (a : ACAgent σ τ) (t_st : ℕ)
    (h : t_st < a.aggDeltas.length) :
    ((a.aggregate_experiences).1.1).getD t_st 0
      = ∑ t in Finset.Ico t_st a.aggDeltas.length,
          a.aggDeltas.getD t 0 * (a.discount * a.gae_lambda) ^ (t - t_st) :=
  computeAdvs_getD (a.discount * a.gae_lambda) a.aggDeltas t_st h

/-- Claim C2: the TD residuals used by aggregate_experiences satisfy
    delta[t] = reward[t] + value[t+1] * (1 - terminal[t]) - value[t] for
    t < T-1 (using the cached value already in the buffer) and
    delta[T-1] = reward[T-1] + V_T * (1 - terminal[T-1]) - value[T-1],
    where V_T is the bootstrap value computed by running the model's value
    head on the state obtained via get_newest_state. -/
theorem claim2_td_residuals (a : ACAgent σ τ)
    (hT : 0 < a.memory.rewards.length)
    (hv : a.memory.values.length = a.memory.rewards.length)
    (ht : a.memory.terminals.length = a.memory.rewards.length) :
    (∀ t, t + 1 < a.memory.rewards.length →
        a.aggDeltas.getD t 0
          = a.memory.rewards.getD t 0
            + a.memory.values.getD (t + 1) 0
                * maskOf (a.memory.terminals.getD t false)
            - a.memory.values.getD t 0)
    ∧ a.aggDeltas.getD (a.memory.rewards.length - 1) 0
        = a.memory.rewards.getD (a.memory.rewards.length - 1) 0
          + a.model_value a.get_newest_state
              * maskOf (a.memory.terminals.getD (a.memory.rewards.length - 1) false)
          - a.memory.values.getD (a.memory.rewards.length - 1) 0 := by
  constructor
  · intro t htt
    rw [ACAgent.aggDeltas, computeDeltas_getD_lt _ _ _ _ _ htt,
      getD_map_maskOf _ _ (by omega)]
  · rw [ACAgent.aggDeltas, computeDeltas_getD_last,
      getD_map_maskOf _ _ (by omega)]

/-- Concrete agent used by several witnesses: 3 stored timesteps for one
    worker coordinate. -/
def agW : ACAgent Unit Unit :=
  { discount := 99 / 100, gae_lambda := 19 / 20,
    model_value := fun _ => 4 / 5,
    recent_state := fun _ => (), new_obs := [()],
    memory :=
      { rewards := [1, 1, 1], terminals := [false, false, true],
        values := [1 / 2, 3 / 5, 7 / 10],
        log_probs := [11, 12, 13], entropies := [21, 22, 23] } }

theorem claim1_witness :
    ((agW.aggregate_experiences).1.1).getD 0 0
      = ∑ t in Finset.Ico 0 agW.aggDeltas.length,
          agW.aggDeltas.getD t 0 * (agW.discount * agW.gae_lambda) ^ (t - 0) :=
  claim1_advantage_literal_nested_sum agW 0 (by decide)

theorem claim2_witness :
    (agW.aggDeltas.getD 0 0
        = agW.memory.rewards.getD 0 0
          + agW.memory.values.getD 1 0 * maskOf (agW.memory.terminals.getD 0 false)
          - agW.memory.values.getD 0 0)
    ∧ agW.aggDeltas.getD (agW.memory.rewards.length - 1) 0
        = agW.memory.rewards.getD (agW.memory.rewards.length - 1) 0
          + agW.model_value agW.get_newest_state
              * maskOf (agW.memory.terminals.getD (agW.memory.rewards.length - 1) false)
          - agW.memory.values.getD (agW.memory.rewards.length - 1) 0 :=
  ⟨(claim2_td_residuals agW (by decide) (by decide) (by decide)).1 0 (by decide),
    (claim2_td_residuals agW (by decide) (by decide) (by decide)).2⟩

/-- Concrete agent on which the nested sum and the masked backward
    recurrence disagree: a terminal at timestep 0 with a nonzero residual
    after it. -/
def agC3 : ACAgent Unit Unit :=
  { discount := 1, gae_lambda := 1, model_value := fun _ => 0,
    recent_state := fun _ => (), new_obs := [()],
    memory :=
      { rewards := [0, 1], terminals := [true, false], values := [0, 0],
        log_probs := [0, 0], entropies := [0, 0] } }

/-- Claim C3 counterexample: the advantages produced by
    aggregate_experiences' nested sum are NOT numerically identical to the
    masked backward recurrence adv[t] = delta[t] + decay * mask[t] *
    adv[t+1]: on agC3 (terminal at t = 0, delta = [0, 1], decay = 1) the
    nested sum yields [1, 1] while the masked recurrence yields [0, 1]. -/
theorem claim3_counterexample :
    (agC3.aggregate_experiences).1.1
      ≠ specAdvRec (agC3.discount * agC3.gae_lambda)
          (agC3.aggDeltas.zip agC3.memory.terminals) := by
  with_unfolding_all decide

/-- Claim C3 (amended): the advantages produced by aggregate_experiences'
    nested sum are identical to the backward recurrence WITHOUT the mask
    factor, adv[t] = delta[t] + discount * gae_lambda * adv[t+1] with
    adv[T] = 0 (the masked variant coincides only when the deltas see no
    interior terminal). -/
theorem claim3_amended_backward_recurrence (a : ACAgent σ τ) :
    (a.aggregate_experiences).1.1
      = advRecPlain (a.discount * a.gae_lambda) a.aggDeltas :=
  computeAdvs_eq_advRecPlain (a.discount * a.gae_lambda) a.aggDeltas

/-- Claim C8: aggregate_experiences returns three parallel sequences of
    length T -- advantages, log-probabilities and entropies, the latter two
    exactly the cached sequences from the store -- and leaves the
    Experience Store reset to the empty state. -/
theorem claim8_returns_and_reset (a : ACAgent σ τ)
    (hT : 0 < a.memory.rewards.length)
    (hl : a.memory.log_probs.length = a.memory.rewards.length)
    (he : a.memory.entropies.length = a.memory.rewards.length) :
    ((a.aggregate_experiences).1.1).length = a.memory.rewards.length
    ∧ (a.aggregate_experiences).1.2.1 = a.memory.log_probs
    ∧ (a.aggregate_experiences).1.2.2 = a.memory.entropies
    ∧ ((a.aggregate_experiences).1.2.1).length = a.memory.rewards.length
    ∧ ((a.aggregate_experiences).1.2.2).length = a.memory.rewards.length
    ∧ (a.aggregate_experiences).2.memory
        = { rewards := [], terminals := [], values := [],
            log_probs := [], entropies := [] } := by
  refine ⟨?_, rfl, rfl, hl, he, rfl⟩
  show (computeAdvs (a.discount * a.gae_lambda) a.aggDeltas).length = _
  rw [computeAdvs, List.length_map, List.length_range, ACAgent.aggDeltas,
    computeDeltas_length]
  omega

theorem claim8_witness :
    ((agW.aggregate_experiences).1.1).length = agW.memory.rewards.length
    ∧ (agW.aggregate_experiences).1.2.1 = agW.memory.log_probs
    ∧ (agW.aggregate_experiences).1.2.2 = agW.memory.entropies
    ∧ ((agW.aggregate_experiences).1.2.1).length = agW.memory.rewards.length
    ∧ ((agW.aggregate_experiences).1.2.2).length = agW.memory.rewards.length
    ∧ (agW.aggregate_experiences).2.memory
        = { rewards := [], terminals := [], values := [],
            log_probs := [], entropies := [] } :=
  claim8_returns_and_reset agW (by decide) (by decide) (by decide)

/-- Claim C9: if gae_lambda = 0 the decay rate discount * gae_lambda is 0,
    0 ^ 0 = 1 makes each nested sum collapse to its first term, and the
    advantages returned by aggregate_experiences are exactly the deltas
    (single-step TD). -/
theorem claim9_lambda_zero_single_step (a : ACAgent σ τ)
    (h : a.gae_lambda = 0) :
    (a.aggregate_experiences).1.1 = a.aggDeltas := by
  show computeAdvs (a.discount * a.gae_lambda) a.aggDeltas = a.aggDeltas
  rw [h, mul_zero, computeAdvs_eq_advRecPlain, advRecPlain_zero]

/-- Concrete agent with gae_lambda = 0 for the claim C9 witness. -/
def agC9 : ACAgent Unit Unit :=
  { discount := 99 / 100, gae_lambda := 0, model_value := fun _ => 3 / 2,
    recent_state := fun _ => (), new_obs := [()],
    memory :=
      { rewards := [2, 3], terminals := [false, true], values := [1, 1],
        log_probs := [0, 0], entropies := [0, 0] } }

theorem claim9_witness :
    (agC9.aggregate_experiences).1.1 = agC9.aggDeltas :=
  claim9_lambda_zero_single_step agC9 rfl

/- ===== Episodic Tracker: record (source lines 166-190) =====

   The per-worker dictionaries reward_record, ep_rewards, ep_actions,
   episode_steps are Python defaultdicts keyed by worker index; they are
   embedded as total functions ℕ → _ with the dict's default as initial
   value.  The telemetry writer (SummaryWriter, an external collaborator)
   is a parameter mapping each emission to "raises an exception" (true) or
   succeeds (false); a successful emission is logged in the events field.
   Python exception semantics: the source has no try/except, so a raising
   writer call aborts record; the object keeps all mutations made before
   the raise, which the embedding models by returning the state at the
   raise as the Except error payload. -/

variable {γ : Type}

/-- A write to the telemetry sink: writer.add_scalar or
    writer.add_histogram with an action payload or a reward payload. -/
inductive REvent (γ : Type) where
  | scalarEv (tag : String) (value : ℚ) (step : ℕ)
  | actionHist (tag : String) (values : List γ) (step : ℕ)
  | rewardHist (tag : String) (values : List ℚ) (step : ℕ)
deriving DecidableEq

/-- State of the episodic bookkeeping fields set up in the constructor
    (source lines 127-136 and 48): smoothed reward windows, per-episode
    reward/action lists, per-worker episode counters, the global
    record_step, plus the log of successful telemetry writes. -/
structure RecState (γ : Type) where
  reward_record : ℕ → List ℚ
  ep_rewards : ℕ → List ℚ
  ep_actions : ℕ → List γ
  episode_steps : ℕ → ℕ
  record_step : ℕ
  events : List (REvent γ)

/-- Fresh bookkeeping state: defaultdicts are empty, record_step = 0. -/
def initRecState (γ : Type) : RecState γ :=
  ⟨fun _ => [], fun _ => [], fun _ => [], fun _ => 0, 0, []⟩

/-- Pointwise update of a defaultdict-as-function. -/
def updF {β : Type} (f : ℕ → β) (i : ℕ) (x : β) : ℕ → β :=
  fun j => if j = i then x else f j

/-- Append to a collections.deque(maxlen=maxlen): the new element goes to
    the back; if the deque would exceed maxlen, elements are discarded from
    the front. -/
def dequeAppend (maxlen : ℕ) (q : List ℚ) (x : ℚ) : List ℚ :=
  let q' := q ++ [x]
  if maxlen < q'.length then q'.drop (q'.length - maxlen) else q'

/-- Tag f-string of source line 174. -/
def sumTag (i : ℕ) : String := "data/episode_reward_sum_" ++ toString i

/-- Tag f-string of source line 178. -/
def actTag (i : ℕ) : String := "data/episode_action_" ++ toString i

/-- Tag f-string of source line 182. -/
def rewTag (i : ℕ) : String := "data/episode_reward_dist_" ++ toString i

/-- One iteration of record's worker loop (source lines 168-189) for worker
    i with that worker's action a, reward r and terminal flag t: append to
    the smoothed window and both episode lists; on terminal, emit the
    episode reward sum, the action histogram and the reward histogram
    (each write may raise, aborting with the state at the raise), then
    increment the episode counter and clear the episode lists. -/
def recordStep (sink : REvent γ → Bool) (sl : ℕ) (a : γ) (r : ℚ) (t : Bool)
    (i : ℕ) (st : RecState γ) : Except (RecState γ) (RecState γ) :=
  let st1 : RecState γ :=
    { st with
      reward_record := updF st.reward_record i (dequeAppend sl (st.reward_record i) r),
      ep_rewards := updF st.ep_rewards i (st.ep_rewards i ++ [r]),
      ep_actions := updF st.ep_actions i (st.ep_actions i ++ [a]) }
  if t then
    let e1 := REvent.scalarEv (sumTag i) (st1.ep_rewards i).sum (st1.episode_steps i)
    if sink e1 then .error st1 else
    let st2 := { st1 with events := st1.events ++ [e1] }
    let e2 := REvent.actionHist (actTag i) (st2.ep_actions i) (st2.episode_steps i)
    if sink e2 then .error st2 else
    let st3 := { st2 with events := st2.events ++ [e2] }
    let e3 := REvent.rewardHist (rewTag i) (st3.ep_rewards i) (st3.episode_steps i)
    if sink e3 then .error st3 else
    let st4 := { st3 with events := st3.events ++ [e3] }
    .ok { st4 with
          episode_steps := updF st4.episode_steps i (st4.episode_steps i + 1),
          ep_rewards := updF st4.ep_rewards i [],
          ep_actions := updF st4.ep_actions i [] }
  else
    .ok st1

/-- The worker loop of record: for i in range(n_workers), over the zipped
    per-worker triples. -/
def recordLoop (sink : REvent γ → Bool) (sl : ℕ) :
    List (γ × ℚ × Bool) → ℕ → RecState γ → Except (RecState γ) (RecState γ)
  | [], _, st => .ok st
  | w :: rest, i, st =>
    match recordStep sink sl w.1 w.2.1 w.2.2 i st with
    | .error e => .error e
    | .ok st' => recordLoop sink sl rest (i + 1) st'

/-- Source lines 166-190: record(action, reward, terminal) iterates the
    worker loop over i in range(len(action)) and finally increments
    record_step (reached only when no writer call raised). -/
def record (sink : REvent γ → Bool) (sl : ℕ) (action : List γ)
    (reward : List ℚ) (terminal : List Bool) (st : RecState γ) :
    Except (RecState γ) (RecState γ) :=
  match recordLoop sink sl (action.zip (reward.zip terminal)) 0 st with
  | .error e => .error e
  | .ok st' => .ok { st' with record_step := st'.record_step + 1 }

/-- A telemetry sink that never raises. -/
def okSink (γ : Type) : REvent γ → Bool := fun _ => false

/-- A telemetry sink that raises on every write. -/
def failSink (γ : Type) : REvent γ → Bool := fun _ => true

/-- Whether an Except is a success. -/
def isOkE {ε β : Type} : Except ε β → Bool
  | .ok _ => true
  | .error _ => false

/-- Repeated record calls (one per timestep of a run). -/
def runRecords (sink : REvent γ → Bool) (sl : ℕ) :
    List (List γ × List ℚ × List Bool) → RecState γ → Except (RecState γ) (RecState γ)
  | [], st => .ok st
  | c :: rest, st =>
    match record sink sl c.1 c.2.1 c.2.2 st with
    | .error e => .error e
    | .ok st' => runRecords sink sl rest st'

/-- The effect of a successful worker iteration on worker j's slice of the
    state (the post-state of claim C6): window appended with eviction; on
    terminal the three summary events tagged with the pre-state episode
    index are among the emitted events, the episode index is incremented by
    exactly one and both episode lists are cleared; otherwise the episode
    index is unchanged and both episode lists grow by exactly the new
    element. -/
def recordWorkerPost (sl : ℕ) (w : γ × ℚ × Bool) (pre post : RecState γ)
    (j : ℕ) : Prop :=
  post.reward_record j = dequeAppend sl (pre.reward_record j) w.2.1 ∧
  if w.2.2 then
    post.ep_rewards j = [] ∧ post.ep_actions j = [] ∧
    post.episode_steps j = pre.episode_steps j + 1 ∧
    REvent.scalarEv (sumTag j) (pre.ep_rewards j ++ [w.2.1]).sum
        (pre.episode_steps j) ∈ post.events ∧
    REvent.actionHist (actTag j) (pre.ep_actions j ++ [w.1])
        (pre.episode_steps j) ∈ post.events ∧
    REvent.rewardHist (rewTag j) (pre.ep_rewards j ++ [w.2.1])
        (pre.episode_steps j) ∈ post.events
  else
    post.ep_rewards j = pre.ep_rewards j ++ [w.2.1] ∧
    post.ep_actions j = pre.ep_actions j ++ [w.1] ∧
    post.episode_steps j = pre.episode_steps j

theorem updF_self {β : Type} (f : ℕ → β) (i : ℕ) (x : β) : updF f i x i = x := by
  simp [updF]

theorem updF_ne {β : Type} (f : ℕ → β) (i j : ℕ) (x : β) (h : j ≠ i) :
    updF f i x j = f j := by
  simp [updF, h]

theorem updF_updF {β : Type} (f : ℕ → β) (i : ℕ) (x y : β) :
    updF (updF f i x) i y = updF f i y := by
  funext j
  by_cases h : j = i <;> simp [updF, h]

/-- Closed form of a successful worker iteration (recordStep with a
    non-raising sink). -/
def stepResult (sl : ℕ) (a : γ) (r : ℚ) (t : Bool) (i : ℕ) (st : RecState γ) :
    RecState γ :=
  if t then
    { reward_record := updF st.reward_record i (dequeAppend sl (st.reward_record i) r),
      ep_rewards := updF st.ep_rewards i [],
      ep_actions := updF st.ep_actions i [],
      episode_steps := updF st.episode_steps i (st.episode_steps i + 1),
      record_step := st.record_step,
      events := st.events
        ++ [REvent.scalarEv (sumTag i) (st.ep_rewards i ++ [r]).sum (st.episode_steps i),
            REvent.actionHist (actTag i) (st.ep_actions i ++ [a]) (st.episode_steps i),
            REvent.rewardHist (rewTag i) (st.ep_rewards i ++ [r]) (st.episode_steps i)] }
  else
    { st with
      reward_record := updF st.reward_record i (dequeAppend sl (st.reward_record i) r),
      ep_rewards := updF st.ep_rewards i (st.ep_rewards i ++ [r]),
      ep_actions := updF st.ep_actions i (st.ep_actions i ++ [a]) }

theorem recordStep_okSink (sl : ℕ) (a : γ) (r : ℚ) (t : Bool) (i : ℕ)
    (st : RecState γ) :
    recordStep (okSink γ) sl a r t i st = .ok (stepResult sl a r t i st) := by
  cases t with
  | false => rfl
  | true =>
    simp [recordStep, stepResult, okSink, updF_self, updF_updF]

theorem recordWorkerPost_pre_congr (sl : ℕ) (w : γ × ℚ × Bool)
    (pre pre' post : RecState γ) (j : ℕ)
    (h1 : pre.ep_rewards j = pre'.ep_rewards j)
    (h2 : pre.ep_actions j = pre'.ep_actions j)
    (h3 : pre.episode_steps j = pre'.episode_steps j)
    (h4 : pre.reward_record j = pre'.reward_record j)
    (hpost : recordWorkerPost sl w pre post j) :
    recordWorkerPost sl w pre' post j := by
  unfold recordWorkerPost at hpost ⊢
  rw [h1, h2, h3, h4] at hpost
  exact hpost

theorem recordWorkerPost_post_extend (sl : ℕ) (w : γ × ℚ × Bool)
    (pre mid post : RecState γ) (j : ℕ)
    (hpost : recordWorkerPost sl w pre mid j)
    (hrr : post.reward_record j = mid.reward_record j)
    (her : post.ep_rewards j = mid.ep_rewards j)
    (hea : post.ep_actions j = mid.ep_actions j)
    (hes : post.episode_steps j = mid.episode_steps j)
    (hev : ∀ e, e ∈ mid.events → e ∈ post.events) :
    recordWorkerPost sl w pre post j := by
  unfold recordWorkerPost at hpost ⊢
  obtain ⟨hp1, hp2⟩ := hpost
  refine ⟨hrr.trans hp1, ?_⟩
  cases hw : w.2.2 with
  | false =>
    rw [hw] at hp2
    simp only [if_neg Bool.false_ne_true] at hp2 ⊢
    exact ⟨her.trans hp2.1, hea.trans hp2.2.1, hes.trans hp2.2.2⟩
  | true =>
    rw [hw] at hp2
    simp only [if_pos rfl] at hp2 ⊢
    exact ⟨her.trans hp2.1, hea.trans hp2.2.1, hes.trans hp2.2.2.1,
      hev _ hp2.2.2.2.1, hev _ hp2.2.2.2.2.1, hev _ hp2.2.2.2.2.2⟩

theorem recordLoop_ok_spec (sl : ℕ) (ws : List (γ × ℚ × Bool)) :
    ∀ (i0 : ℕ) (st : RecState γ),
      ∃ st', recordLoop (okSink γ) sl ws i0 st = .ok st'
        ∧ (∀ j, j < i0 ∨ i0 + ws.length ≤ j →
            st'.reward_record j = st.reward_record j ∧
            st'.ep_rewards j = st.ep_rewards j ∧
            st'.ep_actions j = st.ep_actions j ∧
            st'.episode_steps j = st.episode_steps j)
        ∧ st'.record_step = st.record_step
        ∧ (∀ e, e ∈ st.events → e ∈ st'.events)
        ∧ (∀ k, ∀ hk : k < ws.length,
            recordWorkerPost sl (ws.get ⟨k, hk⟩) st st' (i0 + k)) := by
  induction ws with
  | nil =>
    intro i0 st
    exact ⟨st, rfl, fun j _ => ⟨rfl, rfl, rfl, rfl⟩, rfl, fun e he => he,
      fun k hk => absurd hk (by simp)⟩
  | cons w rest ih =>
    intro i0 st
    obtain ⟨st', hrun, hframe, hstep, hmono, hper⟩ :=
      ih (i0 + 1) (stepResult sl w.1 w.2.1 w.2.2 i0 st)
    have hmidframe : ∀ j, j ≠ i0 →
        (stepResult sl w.1 w.2.1 w.2.2 i0 st).reward_record j = st.reward_record j ∧
        (stepResult sl w.1 w.2.1 w.2.2 i0 st).ep_rewards j = st.ep_rewards j ∧
        (stepResult sl w.1 w.2.1 w.2.2 i0 st).ep_actions j = st.ep_actions j ∧
        (stepResult sl w.1 w.2.1 w.2.2 i0 st).episode_steps j = st.episode_steps j := by
      intro j hj
      cases hw : w.2.2 <;>
        simp [stepResult, hw, updF_ne _ _ _ _ hj]
    have hmidstep : (stepResult sl w.1 w.2.1 w.2.2 i0 st).record_step
        = st.record_step := by
      cases hw : w.2.2 <;> simp [stepResult, hw]
    have hmidmono : ∀ e, e ∈ st.events →
        e ∈ (stepResult sl w.1 w.2.1 w.2.2 i0 st).events := by
      intro e he
      cases hw : w.2.2 with
      | false => simpa [stepResult, hw] using he
      | true => simp [stepResult, hw, List.mem_append]; exact Or.inl he
    have hmidpost : recordWorkerPost sl w st (stepResult sl w.1 w.2.1 w.2.2 i0 st) i0 := by
      unfold recordWorkerPost
      cases hw : w.2.2 with
      | false =>
        simp [stepResult, hw, updF_self]
      | true =>
        simp [stepResult, hw, updF_self, List.mem_append]
    refine ⟨st', ?_, ?_, ?_, ?_, ?_⟩
    · simp only [recordLoop, recordStep_okSink]
      exact hrun
    · intro j hj
      have hj1 : j < i0 + 1 ∨ (i0 + 1) + rest.length ≤ j := by
        rcases hj with hj | hj
        · exact Or.inl (by omega)
        · right
          simp only [List.length_cons] at hj
          omega
      have hne : j ≠ i0 := by
        rcases hj with hj | hj
        · omega
        · simp only [List.length_cons] at hj
          omega
      obtain ⟨f1, f2, f3, f4⟩ := hframe j hj1
      obtain ⟨g1, g2, g3, g4⟩ := hmidframe j hne
      exact ⟨f1.trans g1, f2.trans g2, f3.trans g3, f4.trans g4⟩
    · exact hstep.trans hmidstep
    · exact fun e he => hmono e (hmidmono e he)
    · intro k hk
      cases k with
      | zero =>
        have hfr := hframe i0 (Or.inl (by omega))
        refine recordWorkerPost_post_extend sl w st
          (stepResult sl w.1 w.2.1 w.2.2 i0 st) st' i0 hmidpost
          ?_ ?_ ?_ ?_ hmono
        · exact hfr.1
        · exact hfr.2.1
        · exact hfr.2.2.1
        · exact hfr.2.2.2
      | succ k =>
        have hk' : k < rest.length := by
          simp only [List.length_cons] at hk
          omega
        have hp := hper k hk'
        have hidx : i0 + 1 + k = i0 + (k + 1) := by omega
        rw [hidx] at hp
        have hne : i0 + (k + 1) ≠ i0 := by omega
        obtain ⟨g1, g2, g3, g4⟩ := hmidframe (i0 + (k + 1)) hne
        exact recordWorkerPost_pre_congr sl _ _ st st' (i0 + (k + 1))
          g2 g3 g4 g1 hp

/-- Claim C4 counterexample: when the telemetry sink raises during an
    episode-summary emission, record does NOT complete: it propagates the
    error (the source lines 166-190 contain no try/except around the
    writer calls). -/
theorem claim4_counterexample :
    isOkE (record (failSink ℚ) 100 [(2 : ℚ)] [(5 : ℚ)] [true] (initRecState ℚ))
      = false := rfl

/-- Claim C4 (amended): if the telemetry sink raises while the episode
    summary of a terminating worker is being emitted, the error propagates
    out of record; at the raise the worker's episode index has NOT been
    incremented, its episode lists have NOT been cleared (they still hold
    the entries appended this timestep), record_step has not advanced and
    no event was written. -/
theorem claim4_amended_error_propagates (sl : ℕ) (st : RecState γ) (a : γ)
    (r : ℚ) :
    ∃ e, record (failSink γ) sl [a] [r] [true] st = .error e
      ∧ e.episode_steps 0 = st.episode_steps 0
      ∧ e.ep_rewards 0 = st.ep_rewards 0 ++ [r]
      ∧ e.ep_actions 0 = st.ep_actions 0 ++ [a]
      ∧ e.record_step = st.record_step
      ∧ e.events = st.events := by
  refine ⟨_, rfl, rfl, ?_, ?_, rfl, rfl⟩
  · simp [updF_self]
  · simp [updF_self]

/-- Claim C6: in a record call whose emissions all succeed, every worker i
    with terminal[i] = true has its three episode-summary events (reward
    sum, action histogram, reward histogram) emitted tagged with its
    pre-call episode index, its episode index incremented by exactly 1 and
    both episode lists cleared; every worker with terminal[i] = false keeps
    its episode index and both its episode lists grow by exactly the new
    element. -/
theorem claim6_record_per_worker (sl : ℕ) (action : List γ) (reward : List ℚ)
    (terminal : List Bool) (st stres : RecState γ)
    (h : record (okSink γ) sl action reward terminal st = .ok stres) :
    ∀ k, ∀ hk : k < (action.zip (reward.zip terminal)).length,
      recordWorkerPost sl ((action.zip (reward.zip terminal)).get ⟨k, hk⟩)
        st stres k := by
  obtain ⟨st', hrun, hframe, hstep, hmono, hper⟩ :=
    recordLoop_ok_spec sl (action.zip (reward.zip terminal)) 0 st
  rw [record, hrun] at h
  have hres : stres = { st' with record_step := st'.record_step + 1 } :=
    (Except.ok.inj h).symm
  subst hres
  intro k hk
  have hp := hper k hk
  rw [Nat.zero_add] at hp
  exact hp

/-- Projection of the successful branch of an Except computation. -/
def okOr {ε β : Type} (d : β) : Except ε β → β
  | .ok b => b
  | .error _ => d

/-- State after one concrete record call with one terminating worker. -/
def stW6 : RecState ℚ :=
  okOr (initRecState ℚ)
    (record (okSink ℚ) 100 [2] [5] [true] (initRecState ℚ))

theorem claim6_witness :
    recordWorkerPost 100 ((2 : ℚ), (5 : ℚ), true) (initRecState ℚ) stW6 0 :=
  claim6_record_per_worker 100 [2] [5] [true] (initRecState ℚ) stW6 rfl 0
    (by decide)

theorem dequeAppend_length_bound (sl : ℕ) (q : List ℚ) (x : ℚ) :
    (dequeAppend sl q x).length ≤ sl := by
  simp only [dequeAppend]
  split
  · simp only [List.length_drop]
    omega
  · rename_i h
    simp only [List.length_append, List.length_cons, List.length_nil] at h ⊢
    omega

/-- At capacity, the deque append evicts exactly the oldest (front)
    element. -/
theorem dequeAppend_full (sl : ℕ) (q : List ℚ) (x : ℚ) (hq : q.length = sl)
    (h0 : 0 < sl) :
    dequeAppend sl q x = q.drop 1 ++ [x] := by
  simp only [dequeAppend]
  rw [if_pos (by simp [hq])]
  have h1 : (q ++ [x]).length - sl = 1 := by simp [hq]
  rw [h1, List.drop_append_of_le_length (by omega)]

theorem record_preserves_window_bound (sl : ℕ) (action : List γ)
    (reward : List ℚ) (terminal : List Bool) (st stres : RecState γ)
    (h : record (okSink γ) sl action reward terminal st = .ok stres)
    (hP : ∀ i, (st.reward_record i).length ≤ sl) :
    ∀ i, (stres.reward_record i).length ≤ sl := by
  obtain ⟨st', hrun, hframe, hstep, hmono, hper⟩ :=
    recordLoop_ok_spec sl (action.zip (reward.zip terminal)) 0 st
  rw [record, hrun] at h
  have hres : stres = { st' with record_step := st'.record_step + 1 } :=
    (Except.ok.inj h).symm
  subst hres
  intro i
  show (st'.reward_record i).length ≤ sl
  by_cases hi : i < (action.zip (reward.zip terminal)).length
  · have hp := hper i hi
    rw [Nat.zero_add] at hp
    rw [hp.1]
    exact dequeAppend_length_bound sl _ _
  · have hfr := hframe i (Or.inr (by omega))
    rw [hfr.1]
    exact hP i

theorem runRecords_window_bound (sl : ℕ)
    (calls : List (List γ × List ℚ × List Bool)) :
    ∀ st stres, runRecords (okSink γ) sl calls st = .ok stres →
      (∀ i, (st.reward_record i).length ≤ sl) →
      ∀ i, (stres.reward_record i).length ≤ sl := by
  induction calls with
  | nil =>
    intro st stres h hP
    exact (Except.ok.inj h) ▸ hP
  | cons c rest ih =>
    intro st stres h hP
    simp only [runRecords] at h
    cases hr : record (okSink γ) sl c.1 c.2.1 c.2.2 st with
    | error e =>
      rw [hr] at h
      exact Except.noConfusion h
    | ok stm =>
      rw [hr] at h
      exact ih stm stres h
        (record_preserves_window_bound sl c.1 c.2.1 c.2.2 st stm hr hP)

/-- Claim C7: over any sequence of record calls from a fresh agent, each
    worker's smoothed reward window (a deque with maxlen = smooth_length)
    never exceeds its capacity, and once at capacity each append evicts the
    oldest entry first (FIFO: the front of the deque is dropped). -/
theorem claim7_window_bounded_fifo (sl : ℕ)
    (calls : List (List γ × List ℚ × List Bool)) (stres : RecState γ)
    (h : runRecords (okSink γ) sl calls (initRecState γ) = .ok stres) :
    (∀ i, (stres.reward_record i).length ≤ sl)
    ∧ ∀ q x, q.length = sl → 0 < sl → dequeAppend sl q x = q.drop 1 ++ [x] :=
  ⟨runRecords_window_bound sl calls (initRecState γ) stres h
      (fun i => by simp [initRecState]),
    fun q x hq h0 => dequeAppend_full sl q x hq h0⟩

/-- State after three concrete record calls against a window of
    capacity 2. -/
def stW7 : RecState ℚ :=
  okOr (initRecState ℚ)
    (runRecords (okSink ℚ) 2
      [([1], [5], [false]), ([1], [6], [false]), ([1], [7], [false])]
      (initRecState ℚ))

theorem claim7_witness :
    ((stW7.reward_record 0).length ≤ 2)
    ∧ dequeAppend 2 [5, 6] 7 = [5, 6].drop 1 ++ [7] := by
  have h := claim7_window_bounded_fifo 2
    [([1], [5], [false]), ([1], [6], [false]), ([1], [7], [false])] stW7 rfl
  exact ⟨h.1 0, h.2 [5, 6] 7 rfl (by decide)⟩

/- ===== Rollout Controller: predict and observe (source lines 147-164) =====

   This view of the agent keeps the per-worker batch structure of the
   interaction path: obs is the list of raw per-worker observations,
   actions are a per-worker list sampled from the distribution.  The
   Experience Store effects used here (append, store_value_log_prob,
   get_recent_state) belong to class ACMemory which is not among the
   sources; they are modelled from the spec as append-only logs and an
   abstract windowed-state function. -/

/-- Python runtime error raised by observe when processor is None:
    None.process does not exist. -/
inductive PyErr where
  | attributeError
deriving DecidableEq

/-- Errors escaping observe: the AttributeError above, or an exception of
    the telemetry writer propagating out of record (the state at the raise
    attached). -/
inductive ObserveErr (γ : Type) where
  | attr (err : PyErr)
  | writerErr (st : RecState γ)

/-- The rollout-interaction view of ACAgent: the optional feature
    processor, the policy/value model split into its callable pieces
    (dist_sample, dist_log_prob, dist_entropy for the action distribution;
    model_value for the value head), the telemetry sink, and the mutable
    state: the Experience Store logs (modelled from the spec:
    mem_appended logs each memory.append(obs, action, reward, terminal,
    training); mem_cached logs each memory.store_value_log_prob(value,
    log_prob, entropy); recent_state models memory.get_recent_state) and
    the episodic bookkeeping. -/
structure ACRollout (σ τ γ : Type) where
  processor : Option (σ → σ)
  smooth_length : ℕ
  sink : REvent γ → Bool
  dist_sample : τ → List γ
  dist_log_prob : τ → List γ → ℚ
  dist_entropy : τ → ℚ
  model_value : τ → ℚ
  recent_state : List σ → τ
  mem_appended : List (List σ × List γ × List ℚ × List Bool × Bool)
  mem_cached : List (ℚ × ℚ × ℚ)
  rec_state : RecState γ

variable {ρ : Type}

/-- The guarded feature processing used by predict (source lines 148-149)
    and set_new_obs (source lines 193-194): map the processor over the
    per-worker observations only if one is configured. -/
def procObs {σ : Type} (processor : Option (σ → σ)) (obs : List σ) :
    List σ :=
  match processor with
  | some p => obs.map p
  | none => obs

/-- The unguarded list comprehension of observe (source line 162):
    [self.processor.process(obs_i) for obs_i in obs].  The attribute
    lookup happens inside the loop body, so an empty obs list succeeds
    even with processor = None; any non-empty obs raises AttributeError
    when processor is None. -/
def unguardedProc {σ : Type} (processor : Option (σ → σ)) (obs : List σ) :
    Option (List σ) :=
  match obs with
  | [] => some []
  | _ =>
    match processor with
    | some p => some (obs.map p)
    | none => none

/-- Source lines 147-159: predict processes the observations (guarded),
    reconstructs the windowed state, runs the model, samples an action,
    and only when training also computes log_prob and entropy and caches
    (value, log_prob, entropy) in the store; the sampled action is
    returned either way. -/
def ACRollout.predict {σ τ γ : Type} (ag : ACRollout σ τ γ) (obs : List σ)
    (training : Bool) : List γ × ACRollout σ τ γ :=
  let obs' := procObs ag.processor obs
  let state := ag.recent_state obs'
  let value := ag.model_value state
  let action := ag.dist_sample state
  if training then
    (action,
      { ag with mem_cached := ag.mem_cached
          ++ [(value, ag.dist_log_prob state action, ag.dist_entropy state)] })
  else
    (action, ag)

/-- Source lines 161-164: observe processes the observations with the
    UNGUARDED comprehension (AttributeError when processor is None and obs
    is non-empty), appends the transition to the store, then delegates to
    record; a writer exception propagates.  The info argument of the
    source is unused by the body and omitted. -/
def ACRollout.observe {σ τ γ : Type} (ag : ACRollout σ τ γ) (obs : List σ)
    (action : List γ) (reward : List ℚ) (terminal : List Bool)
    (training : Bool) : Except (ObserveErr γ) (ACRollout σ τ γ) :=
  match unguardedProc ag.processor obs with
  | none => .error (.attr .attributeError)
  | some obs' =>
    let ag1 := { ag with mem_appended := ag.mem_appended
        ++ [(obs', action, reward, terminal, training)] }
    match record ag.sink ag.smooth_length action reward terminal ag1.rec_state with
    | .error e => .error (.writerErr e)
    | .ok st' => .ok { ag1 with rec_state := st' }

/-- A rollout driven entirely with training = False: fold predict over the
    successive observation batches, keeping the successor agent state. -/
def predictRun {σ τ γ : Type} (ag : ACRollout σ τ γ) :
    List (List σ) → ACRollout σ τ γ
  | [] => ag
  | obs :: rest => predictRun (ag.predict obs false).2 rest

/-- Concrete agent with no feature processor configured. -/
def agC5 : ACRollout ℚ ℚ ℚ :=
  { processor := none, smooth_length := 100, sink := okSink ℚ,
    dist_sample := fun s => [s], dist_log_prob := fun _ _ => 0,
    dist_entropy := fun _ => 0, model_value := fun _ => 0,
    recent_state := fun _ => 0,
    mem_appended := [], mem_cached := [], rec_state := initRecState ℚ }

/-- Claim C5: code_bug evidence.  With no Feature Processor configured
    (processor = None) and a non-empty observation batch, observe raises
    AttributeError (source line 162 calls self.processor.process without
    the None guard that predict, source lines 148-149, has), instead of
    appending the raw observations; predict on the very same agent
    succeeds and returns the sampled action. -/
theorem claim5_observe_missing_processor_guard :
    agC5.observe [(1 : ℚ)] [(2 : ℚ)] [(3 : ℚ)] [false] true
        = .error (.attr .attributeError)
    ∧ (agC5.predict [(1 : ℚ)] true).1 = [(0 : ℚ)] :=
  ⟨rfl, rfl⟩

/-- Claim C10: predict with training = False samples and returns the
    action exactly as in the training case but performs no
    store_value_log_prob write -- the agent state (in particular the
    store's cached value/log-prob/entropy sequence) is left untouched --
    and consequently a rollout collected entirely with training = False
    leaves the cached sequence exactly as it began (empty if it began
    empty). -/
theorem claim10_predict_frame {σ τ γ : Type} (ag : ACRollout σ τ γ)
    (obs : List σ) :
    ag.predict obs false
        = (ag.dist_sample (ag.recent_state (procObs ag.processor obs)), ag)
    ∧ ∀ run : List (List σ), (predictRun ag run).mem_cached = ag.mem_cached := by
  refine ⟨rfl, ?_⟩
  intro run
  induction run generalizing ag with
  | nil => rfl
  | cons o rest ih => exact ih (ag.predict o false).2

end Rltorch
